import Mathlib

/-!
Verification of the Chinese text colorizer core (src/main.ts).

Shallow embedding conventions:
* A JavaScript string handled per character (the pinyin syllables, which are
  all BMP text) is modelled as `List Char`.
* The editor document, which the code indexes per UTF-16 code unit
  (`text[pos]` yields a single code unit), is modelled as `List Nat` of
  UTF-16 code units (each unit `< 0x10000` for any real document).
* `String.prototype.indexOf` returning `-1` is modelled with `Option Nat`.
* The external romanizer (the pinyin-pro package) is a function parameter.
-/

/-- The `ToneColorSettings` interface: five color strings. -/
structure ToneColorSettings where
  tone1 : String
  tone2 : String
  tone3 : String
  tone4 : String
  tone0 : String
deriving DecidableEq, Repr

/-- The `DEFAULT_SETTINGS` constant from src/main.ts. -/
def DEFAULT_SETTINGS : ToneColorSettings :=
  { tone1 := "blue", tone2 := "green", tone3 := "black", tone4 := "red", tone0 := "gray" }

/-- The `toneMap` table inside `addToneMark`: for each of the 12 markable
vowel letters, its four tone variants (tone 1 = macron, 2 = acute,
3 = caron, 4 = grave); `none` models absence of the key in the record. -/
def toneMap (c : Char) : Option (List Char) :=
  if c = 'a' then some ['ā', 'á', 'ǎ', 'à']
  else if c = 'e' then some ['ē', 'é', 'ě', 'è']
  else if c = 'i' then some ['ī', 'í', 'ǐ', 'ì']
  else if c = 'o' then some ['ō', 'ó', 'ǒ', 'ò']
  else if c = 'u' then some ['ū', 'ú', 'ǔ', 'ù']
  else if c = 'ü' then some ['ǖ', 'ǘ', 'ǚ', 'ǜ']
  else if c = 'A' then some ['Ā', 'Á', 'Ǎ', 'À']
  else if c = 'E' then some ['Ē', 'É', 'Ě', 'È']
  else if c = 'I' then some ['Ī', 'Í', 'Ǐ', 'Ì']
  else if c = 'O' then some ['Ō', 'Ó', 'Ǒ', 'Ò']
  else if c = 'U' then some ['Ū', 'Ú', 'Ǔ', 'Ù']
  else if c = 'Ü' then some ['Ǖ', 'Ǘ', 'Ǚ', 'Ǜ']
  else none

/-- The `vowelsOrder` priority list inside `addToneMark`. -/
def vowelsOrder : List Char := ['a', 'A', 'o', 'O', 'e', 'E']

/-- The character class of the fallback regex `[iIuUüÜ]` inside `addToneMark`. -/
def fallbackVowels : List Char := ['i', 'I', 'u', 'U', 'ü', 'Ü']

/-- `syllable.indexOf(v)`: leftmost index of `v`, `none` for JavaScript's `-1`. -/
def indexOfChar (syllable : List Char) (v : Char) : Option Nat :=
  syllable.findIdx? (fun c => c == v)

/-- `syllable.lastIndexOf(v)`: rightmost index of `v`, `none` for `-1`. -/
def lastIndexOfChar (syllable : List Char) (v : Char) : Option Nat :=
  (syllable.reverse.findIdx? (fun c => c == v)).map (fun j => syllable.length - 1 - j)

/-- The first loop of `addToneMark`: try each vowel of `vowelsOrder` in
order, taking `syllable.indexOf(v)`; the first vowel present wins, and its
leftmost occurrence is the target index. -/
def findPriorityTarget (syllable : List Char) : Option (Nat × Char) :=
  vowelsOrder.findSome? (fun v => (indexOfChar syllable v).map (fun i => (i, v)))

/-- The fallback branch of `addToneMark`: `syllable.match(/[iIuUüÜ]/g)`
yields all occurrences in order; the last matched character is chosen and
the target index is `syllable.lastIndexOf` of it. -/
def findFallbackTarget (syllable : List Char) : Option (Nat × Char) :=
  match (syllable.filter (fun c => fallbackVowels.contains c)).getLast? with
  | none => none
  | some lastVowel =>
      match lastIndexOfChar syllable lastVowel with
      | none => none
      | some i => some (i, lastVowel)

/-- Combined target choice of `addToneMark`: the priority loop's result
when it found something (`targetIdx !== -1`), the fallback search
otherwise. -/
def chosenTarget (syllable : List Char) : Option (Nat × Char) :=
  match findPriorityTarget syllable with
  | some t => some t
  | none => findFallbackTarget syllable

/-- `addToneMark(syllable, tone)` from src/main.ts lines 191-235: returns
`syllable` unchanged when `tone` is outside `[1,4]`; otherwise picks a
target vowel by priority search with fallback, and replaces exactly that
one character by its tone variant from `toneMap`. -/
def addToneMark (syllable : List Char) (tone : Int) : List Char :=
  if tone < 1 ∨ 4 < tone then syllable
  else
    match chosenTarget syllable with
    | none => syllable
    | some (targetIdx, chosenVowel) =>
        match toneMap chosenVowel with
        | none => syllable
        | some variants =>
            syllable.take targetIdx ++ [variants.getD (tone - 1).toNat 'a']
              ++ syllable.drop (targetIdx + 1)

/-- The character class `[a-züÜ]` under the regex's `i` flag: ASCII letters
of both cases plus `ü`/`Ü` (non-Unicode-mode canonicalisation adds nothing
else). -/
def isPinyinLetter (c : Char) : Bool :=
  ('a' ≤ c && c ≤ 'z') || ('A' ≤ c && c ≤ 'Z') || c == 'ü' || c == 'Ü'

/-- The character class `\d`: ASCII digits. -/
def isAsciiDigit (c : Char) : Bool := '0' ≤ c && c ≤ '9'

/-- `numericPinyin.match(/^([a-züÜ]+)(\d)?$/i)` from
`getAccentedColoredPinyin`: the anchored match splits the input into a
nonempty maximal letter prefix and an optional single trailing digit
(letters and digits are disjoint, so greedy matching is this split);
`none` models a failed match. Returns (base, optional tone digit). -/
def matchPinyin (numericPinyin : List Char) : Option (List Char × Option Char) :=
  let base := numericPinyin.takeWhile isPinyinLetter
  let rest := numericPinyin.dropWhile isPinyinLetter
  if base.isEmpty then none
  else
    match rest with
    | [] => some (base, none)
    | [d] => if isAsciiDigit d then some (base, some d) else none
    | _ => none

/-- `parseInt(toneStr, 10)` for a single ASCII digit character. -/
def digitToInt (d : Char) : Int := (d.toNat - '0'.toNat : Int)

/-- `getAccentedColoredPinyin(numericPinyin, settings)` from src/main.ts
lines 172-189: on a failed match, return the input itself with the neutral
color; otherwise parse the tone digit (0 when absent), resolve the color
(1-4 to the corresponding setting, anything else to tone0), and accent the
base with `addToneMark`. Returns (accented, color). -/
def getAccentedColoredPinyin (numericPinyin : List Char) (settings : ToneColorSettings) :
    List Char × String :=
  match matchPinyin numericPinyin with
  | none => (numericPinyin, settings.tone0)
  | some (base, toneStr) =>
      let tone : Int := match toneStr with
        | some d => digitToInt d
        | none => 0
      let color :=
        if tone = 1 then settings.tone1
        else if tone = 2 then settings.tone2
        else if tone = 3 then settings.tone3
        else if tone = 4 then settings.tone4
        else settings.tone0
      (addToneMark base tone, color)

/-- `isChineseChar(char)`: `/[一-鿿]/.test(char)` — true when some
UTF-16 code unit of the argument lies in the CJK Unified Ideographs range. -/
def isChineseChar (s : List Nat) : Bool :=
  s.any (fun u => 0x4E00 ≤ u && u ≤ 0x9FFF)

/-- `const charSize = char.codePointAt(0)! > 0xffff ? 2 : 1` applied to the
single code unit `text[pos]`. -/
def charSize (u : Nat) : Nat := if 0xFFFF < u then 2 else 1

/-- One emitted decoration: `builder.add(pos, pos + charSize, deco)` with
the style color and the accented tooltip text. -/
structure Decoration where
  startOffset : Nat
  endOffset : Nat
  color : String
  title : List Char
deriving DecidableEq, Repr

/-- The scanning loop of `computeDecorations` (src/main.ts lines 142-159):
starting at `pos`, while `pos < toPos`, read the single code unit
`text[pos]`, compute its width, emit a decoration when `isChineseChar`
holds (romanizing through the external `rom`, taking `pyArr[0] || ""`),
and advance `pos` by the width. -/
def scanLoop (text : List Nat) (toPos : Nat) (rom : List Nat → List (List Char))
    (settings : ToneColorSettings) (pos : Nat) : List Decoration :=
  if _h : pos < toPos then
    if isChineseChar [text.getD pos 0] then
      { startOffset := pos
        endOffset := pos + charSize (text.getD pos 0)
        color := (getAccentedColoredPinyin ((rom [text.getD pos 0]).headD []) settings).2
        title := (getAccentedColoredPinyin ((rom [text.getD pos 0]).headD []) settings).1 }
        :: scanLoop text toPos rom settings (pos + charSize (text.getD pos 0))
    else scanLoop text toPos rom settings (pos + charSize (text.getD pos 0))
  else []
termination_by toPos - pos
decreasing_by
  all_goals
    unfold charSize
    split <;> omega

/-- `computeDecorations` over the viewport `[fromPos, toPos)`: the ordered
list of decorations added to the `RangeSetBuilder`. -/
def computeDecorations (text : List Nat) (fromPos toPos : Nat)
    (rom : List Nat → List (List Char)) (settings : ToneColorSettings) : List Decoration :=
  scanLoop text toPos rom settings fromPos

/-- UTF-16 encoding of one character, as JavaScript strings store it. -/
def utf16Encode (c : Char) : List Nat :=
  if c.toNat < 0x10000 then [c.toNat]
  else [0xD800 + (c.toNat - 0x10000) / 0x400, 0xDC00 + (c.toNat - 0x10000) % 0x400]

/-- UTF-16 encoding of a character sequence: the code-unit view of a
JavaScript string. -/
def utf16 (s : List Char) : List Nat := (s.map utf16Encode).flatten

/-- The tone variant `toneMap[chosenVowel][tone - 1]` as a total function
(default values are never reached on the code's inputs). -/
def toneVariant (v : Char) (tone : Int) : Char :=
  ((toneMap v).getD []).getD (tone - 1).toNat 'a'

/-- The twelve letters that have an entry in `toneMap`. -/
def markableVowels : List Char := vowelsOrder ++ fallbackVowels

/-- State-passing form of one `computeDecorations` pass: the code only
reads the document text and the settings (it contains no assignment to
either), so the pass hands its state back unchanged next to the computed
decoration list. -/
def computeDecorationsPass (st : List Nat × ToneColorSettings) (fromPos toPos : Nat)
    (rom : List Nat → List (List Char)) :
    (List Nat × ToneColorSettings) × List Decoration :=
  (st, computeDecorations st.1 fromPos toPos rom st.2)

/-! ### Helper lemmas about the index searches -/

theorem charSize_pos (u : Nat) : 1 ≤ charSize u := by
  unfold charSize; split <;> omega

theorem indexOfChar_eq_none_iff (l : List Char) (v : Char) :
    indexOfChar l v = none ↔ v ∉ l := by
  unfold indexOfChar
  rw [List.findIdx?_eq_none_iff]
  constructor
  · intro h hv
    have := h v hv
    simp at this
  · intro hv x hx
    simp only [beq_eq_false_iff_ne, ne_eq]
    rintro rfl
    exact hv hx

theorem getElem?_of_indexOfChar {l : List Char} {v : Char} {i : Nat}
    (h : indexOfChar l v = some i) : l[i]? = some v := by
  unfold indexOfChar at h
  rw [List.findIdx?_eq_some_iff_getElem] at h
  obtain ⟨hlen, hp, -⟩ := h
  rw [List.getElem?_eq_getElem hlen]
  simpa using hp

theorem indexOfChar_of_leftmost {l : List Char} {v : Char} {i : Nat}
    (hv : l[i]? = some v) (hmin : ∀ j, j < i → l[j]? ≠ some v) :
    indexOfChar l v = some i := by
  obtain ⟨hlen, hval⟩ := List.getElem?_eq_some_iff.mp hv
  unfold indexOfChar
  rw [List.findIdx?_eq_some_iff_getElem]
  refine ⟨hlen, by simp [hval], ?_⟩
  intro j hj
  have hne := hmin j hj
  have hjlen : j < l.length := lt_trans hj hlen
  rw [List.getElem?_eq_getElem hjlen] at hne
  simp only [ne_eq, Option.some.injEq] at hne
  simp [hne]

theorem getElem?_of_lastIndexOfChar {l : List Char} {v : Char} {i : Nat}
    (h : lastIndexOfChar l v = some i) : l[i]? = some v := by
  unfold lastIndexOfChar at h
  rw [Option.map_eq_some'] at h
  obtain ⟨j, hj, hi⟩ := h
  rw [List.findIdx?_eq_some_iff_getElem] at hj
  obtain ⟨hlen, hp, -⟩ := hj
  rw [List.length_reverse] at hlen
  have hrev : l.reverse[j]? = l[l.length - 1 - j]? := List.getElem?_reverse hlen
  rw [List.getElem?_eq_getElem (by simpa using hlen)] at hrev
  have : l.reverse[j] = v := by simpa using hp
  rw [this] at hrev
  rw [← hi]
  exact hrev.symm

theorem lastIndexOfChar_of_rightmost {l : List Char} {v : Char} {i : Nat}
    (hv : l[i]? = some v) (hmax : ∀ j, i < j → l[j]? ≠ some v) :
    lastIndexOfChar l v = some i := by
  obtain ⟨hlen, hval⟩ := List.getElem?_eq_some_iff.mp hv
  unfold lastIndexOfChar
  have hrev : l.reverse.findIdx? (fun c => c == v) = some (l.length - 1 - i) := by
    rw [List.findIdx?_eq_some_iff_getElem]
    have h1 : l.length - 1 - i < l.reverse.length := by rw [List.length_reverse]; omega
    refine ⟨h1, ?_, ?_⟩
    · have h2 : l.reverse[l.length - 1 - i]? = l[l.length - 1 - (l.length - 1 - i)]? :=
        List.getElem?_reverse (by omega)
      have h3 : l.length - 1 - (l.length - 1 - i) = i := by omega
      rw [h3, hv] at h2
      rw [List.getElem?_eq_getElem (by omega)] at h2
      simp only [Option.some.injEq] at h2
      simp [h2]
    · intro j hj
      have hjlen : j < l.length := by omega
      have h2 : l.reverse[j]? = l[l.length - 1 - j]? := List.getElem?_reverse hjlen
      have hne := hmax (l.length - 1 - j) (by omega)
      rw [← h2, List.getElem?_eq_getElem (by simpa using hjlen)] at hne
      simp only [ne_eq, Option.some.injEq] at hne
      simpa using hne
  rw [hrev]
  simp only [Option.map_some']
  congr 1
  omega

theorem findSome?_eq_some_mem {α β : Type} {f : α → Option β} :
    ∀ {l : List α} {b : β}, l.findSome? f = some b → ∃ a ∈ l, f a = some b := by
  intro l
  induction l with
  | nil => intro b h; simp [List.findSome?_nil] at h
  | cons a as ih =>
      intro b h
      rw [List.findSome?_cons] at h
      split at h
      next c hc => exact ⟨a, by simp, by rw [hc, h]⟩
      next hc =>
        obtain ⟨x, hx, hfx⟩ := ih h
        exact ⟨x, by simp [hx], hfx⟩

theorem filter_head?_of_leftmost {p : Char → Bool} :
    ∀ {l : List Char} {k : Nat} {v : Char},
      l[k]? = some v → p v = true →
      (∀ j, j < k → ∀ w, l[j]? = some w → p w = false) →
      (l.filter p).head? = some v := by
  intro l
  induction l with
  | nil => intro k v hocc _ _; simp at hocc
  | cons c t ih =>
      intro k v hocc hpv hbefore
      cases k with
      | zero =>
          simp only [List.getElem?_cons_zero, Option.some.injEq] at hocc
          subst hocc
          simp [List.filter_cons, hpv]
      | succ k =>
          have hc : p c = false := hbefore 0 (Nat.succ_pos k) c (by simp)
          have hocc' : t[k]? = some v := by simpa using hocc
          have hbefore' : ∀ j, j < k → ∀ w, t[j]? = some w → p w = false := by
            intro j hj w hw
            exact hbefore (j + 1) (by omega) w (by simpa using hw)
          simpa [List.filter_cons, hc] using ih hocc' hpv hbefore'

theorem filter_getLast?_of_rightmost {p : Char → Bool} {l : List Char} {i : Nat} {v : Char}
    (hocc : l[i]? = some v) (hpv : p v = true)
    (hafter : ∀ j, i < j → ∀ w, l[j]? = some w → p w = false) :
    (l.filter p).getLast? = some v := by
  rw [List.getLast?_eq_head?_reverse, ← List.filter_reverse]
  obtain ⟨hlen, -⟩ := List.getElem?_eq_some_iff.mp hocc
  apply filter_head?_of_leftmost (k := l.length - 1 - i) ?_ hpv
  · intro j hj w hw
    have hjlen : j < l.length := by omega
    rw [List.getElem?_reverse hjlen] at hw
    exact hafter (l.length - 1 - j) (by omega) w hw
  · rw [List.getElem?_reverse (by omega)]
    have h3 : l.length - 1 - (l.length - 1 - i) = i := by omega
    rw [h3]
    exact hocc

theorem mem_of_getLast?_eq {l : List Char} {v : Char} (h : l.getLast? = some v) : v ∈ l := by
  rw [List.getLast?_eq_head?_reverse, List.head?_eq_some_iff] at h
  obtain ⟨ys, hys⟩ := h
  have : v ∈ l.reverse := by rw [hys]; exact List.mem_cons_self _ _
  simpa using this

theorem findFallbackTarget_of_rightmost {l : List Char} {i : Nat} {v : Char}
    (hocc : l[i]? = some v) (hv : fallbackVowels.contains v = true)
    (hafter : ∀ j, i < j → ∀ w, l[j]? = some w → fallbackVowels.contains w = false) :
    findFallbackTarget l = some (i, v) := by
  have hlast : (l.filter (fun c => fallbackVowels.contains c)).getLast? = some v :=
    filter_getLast?_of_rightmost hocc hv hafter
  have hlio : lastIndexOfChar l v = some i := by
    apply lastIndexOfChar_of_rightmost hocc
    intro j hj hcontra
    have := hafter j hj v hcontra
    rw [hv] at this
    simp at this
  unfold findFallbackTarget
  rw [hlast]
  simp [hlio]

theorem findFallbackTarget_sound {l : List Char} {i : Nat} {v : Char}
    (h : findFallbackTarget l = some (i, v)) :
    l[i]? = some v ∧ fallbackVowels.contains v = true := by
  unfold findFallbackTarget at h
  split at h
  · exact absurd h (by simp)
  next lastVowel hsome =>
    split at h
    · exact absurd h (by simp)
    next i' hsome2 =>
      simp only [Option.some.injEq, Prod.mk.injEq] at h
      obtain ⟨rfl, rfl⟩ := h
      refine ⟨getElem?_of_lastIndexOfChar hsome2, ?_⟩
      have hmem := mem_of_getLast?_eq hsome
      exact (List.mem_filter.mp hmem).2

theorem findFallbackTarget_eq_none {l : List Char}
    (h : findFallbackTarget l = none) :
    ∀ c ∈ l, fallbackVowels.contains c = false := by
  intro c hc
  unfold findFallbackTarget at h
  split at h
  next hnone =>
    rw [List.getLast?_eq_none_iff, List.filter_eq_nil_iff] at hnone
    simpa using hnone c hc
  next lastVowel hsome =>
    split at h
    next hnone2 =>
      exfalso
      have hmem := mem_of_getLast?_eq hsome
      rw [List.mem_filter] at hmem
      unfold lastIndexOfChar at hnone2
      rw [Option.map_eq_none'] at hnone2
      rw [List.findIdx?_eq_none_iff] at hnone2
      have := hnone2 lastVowel (by simp [hmem.1])
      simp at this
    next i' hsome2 => exact absurd h (by simp)

theorem findPriorityTarget_sound {l : List Char} {i : Nat} {v : Char}
    (h : findPriorityTarget l = some (i, v)) :
    v ∈ vowelsOrder ∧ l[i]? = some v := by
  obtain ⟨w, hw, hfw⟩ := findSome?_eq_some_mem h
  rw [Option.map_eq_some'] at hfw
  obtain ⟨j, hj, hjv⟩ := hfw
  obtain ⟨rfl, rfl⟩ := Prod.mk.injEq .. |>.mp hjv
  exact ⟨hw, getElem?_of_indexOfChar hj⟩

theorem findPriorityTarget_eq_none {l : List Char}
    (h : findPriorityTarget l = none) : ∀ w ∈ vowelsOrder, w ∉ l := by
  intro w hw
  unfold findPriorityTarget at h
  rw [List.findSome?_eq_none_iff] at h
  have := h w hw
  rw [Option.map_eq_none'] at this
  exact (indexOfChar_eq_none_iff l w).mp this

theorem findPriorityTarget_of_choice {l : List Char} {v : Char} {i : Nat}
    (hv : v ∈ vowelsOrder)
    (hocc : l[i]? = some v)
    (hleft : ∀ j, j < i → l[j]? ≠ some v)
    (hpri : ∀ w ∈ vowelsOrder.take (vowelsOrder.indexOf v), w ∉ l) :
    findPriorityTarget l = some (i, v) := by
  have hidx : indexOfChar l v = some i := indexOfChar_of_leftmost hocc hleft
  have habs : ∀ w ∈ vowelsOrder.take (vowelsOrder.indexOf v), indexOfChar l w = none :=
    fun w hw => (indexOfChar_eq_none_iff l w).mpr (hpri w hw)
  simp only [vowelsOrder, List.mem_cons, List.not_mem_nil, or_false] at hv
  rcases hv with rfl | rfl | rfl | rfl | rfl | rfl
  · simp [findPriorityTarget, vowelsOrder, List.findSome?_cons, hidx]
  · have ha := habs 'a' (by decide)
    simp [findPriorityTarget, vowelsOrder, List.findSome?_cons, ha, hidx]
  · have ha := habs 'a' (by decide)
    have hA := habs 'A' (by decide)
    simp [findPriorityTarget, vowelsOrder, List.findSome?_cons, ha, hA, hidx]
  · have ha := habs 'a' (by decide)
    have hA := habs 'A' (by decide)
    have ho := habs 'o' (by decide)
    simp [findPriorityTarget, vowelsOrder, List.findSome?_cons, ha, hA, ho, hidx]
  · have ha := habs 'a' (by decide)
    have hA := habs 'A' (by decide)
    have ho := habs 'o' (by decide)
    have hO := habs 'O' (by decide)
    simp [findPriorityTarget, vowelsOrder, List.findSome?_cons, ha, hA, ho, hO, hidx]
  · have ha := habs 'a' (by decide)
    have hA := habs 'A' (by decide)
    have ho := habs 'o' (by decide)
    have hO := habs 'O' (by decide)
    have he := habs 'e' (by decide)
    simp [findPriorityTarget, vowelsOrder, List.findSome?_cons, ha, hA, ho, hO, he, hidx]

theorem char_eq_of_toNat_eq {c d : Char} (h : c.toNat = d.toNat) : c = d := by
  apply Char.ext
  unfold Char.toNat at h
  exact UInt32.toNat.inj h

theorem addToneMark_not_in_range (syllable : List Char) (tone : Int)
    (h : tone < 1 ∨ 4 < tone) : addToneMark syllable tone = syllable := by
  unfold addToneMark
  rw [if_pos h]

theorem addToneMark_marks {syllable : List Char} {tone : Int} {i : Nat} {v : Char}
    {variants : List Char}
    (h1 : ¬(tone < 1 ∨ 4 < tone))
    (ht : chosenTarget syllable = some (i, v))
    (hocc : syllable[i]? = some v)
    (hvar : toneMap v = some variants) :
    addToneMark syllable tone = syllable.set i (toneVariant v tone) := by
  obtain ⟨hlen, -⟩ := List.getElem?_eq_some_iff.mp hocc
  unfold addToneMark
  rw [if_neg h1]
  simp only [ht, hvar]
  rw [List.set_eq_take_append_cons_drop, if_pos hlen]
  simp [toneVariant, hvar]

theorem takeWhile_append_single {p : Char → Bool} {d : Char} (hd : p d = false) :
    ∀ (l : List Char), (∀ c ∈ l, p c = true) →
      (l ++ [d]).takeWhile p = l ∧ (l ++ [d]).dropWhile p = [d] := by
  intro l
  induction l with
  | nil => intro _; simp [List.takeWhile_cons, List.dropWhile_cons, hd]
  | cons c t ih =>
      intro h
      have hc : p c = true := h c (by simp)
      have ht := ih (fun x hx => h x (by simp [hx]))
      simp [List.takeWhile_cons, List.dropWhile_cons, hc, ht.1, ht.2]

/-! ### Claim theorems -/

/-- C8: for every base string and every tone value not in [1,4] (including
0 and any out-of-range value), `addToneMark` returns the base unchanged. -/
theorem addToneMark_noop_out_of_range (base : List Char) (tone : Int)
    (h : tone < 1 ∨ 4 < tone) : addToneMark base tone = base :=
  addToneMark_not_in_range base tone h

theorem addToneMark_noop_out_of_range_witness :
    addToneMark "ma".toList 0 = "ma".toList :=
  addToneMark_noop_out_of_range "ma".toList 0 (Or.inl (by decide))

/-- C4 counterexample: the input "ma7" has a trailing digit outside 0-4,
which the claim calls non-conforming, yet `getAccentedColoredPinyin` does
not return it unmodified: the matcher accepts any digit, strips it, and
returns accented text "ma". -/
theorem ma7_not_returned_verbatim :
    getAccentedColoredPinyin "ma7".toList DEFAULT_SETTINGS
        = ("ma".toList, DEFAULT_SETTINGS.tone0)
      ∧ ("ma".toList : List Char) ≠ "ma7".toList := by
  constructor
  · rfl
  · decide

/-- C4 (amended): for every input string that does not match the code's
shape `(letters)+(any single digit)?` — the matcher accepts any trailing
ASCII digit, not only 0-4 — `getAccentedColoredPinyin` returns the literal
input with the neutral color, raising no error. -/
theorem unparseable_input_returned_verbatim (settings : ToneColorSettings)
    (input : List Char) (h : matchPinyin input = none) :
    getAccentedColoredPinyin input settings = (input, settings.tone0) := by
  simp [getAccentedColoredPinyin, h]

theorem unparseable_input_returned_verbatim_witness :
    getAccentedColoredPinyin "ma77".toList DEFAULT_SETTINGS
      = ("ma77".toList, DEFAULT_SETTINGS.tone0) :=
  unparseable_input_returned_verbatim DEFAULT_SETTINGS "ma77".toList (by decide)

/-- C10: a nonempty letter string followed by a single digit in 5-9 is
accepted by the matcher (any single trailing digit is permitted), the
digit is stripped with no diacritic applied, and the color is the neutral
tone0. -/
theorem trailing_digit_five_to_nine (settings : ToneColorSettings)
    (base : List Char) (d : Char)
    (hbase : base ≠ [])
    (hletters : ∀ c ∈ base, isPinyinLetter c = true)
    (hd : d ∈ (['5', '6', '7', '8', '9'] : List Char)) :
    getAccentedColoredPinyin (base ++ [d]) settings = (base, settings.tone0) := by
  have hdl : isPinyinLetter d = false := by fin_cases hd <;> decide
  have hdd : isAsciiDigit d = true := by fin_cases hd <;> decide
  have htone : 5 ≤ digitToInt d ∧ digitToInt d ≤ 9 := by
    fin_cases hd <;> exact ⟨by decide, by decide⟩
  have hne : base.isEmpty = false := by
    cases base with
    | nil => exact absurd rfl hbase
    | cons c t => rfl
  have hsp := takeWhile_append_single hdl base hletters
  have hmatch : matchPinyin (base ++ [d]) = some (base, some d) := by
    simp only [matchPinyin, hsp.1, hsp.2, hne]
    simp [hdd]
  simp only [getAccentedColoredPinyin, hmatch]
  rw [if_neg (by omega), if_neg (by omega), if_neg (by omega), if_neg (by omega),
    addToneMark_not_in_range base _ (Or.inr (by omega))]

theorem trailing_digit_five_to_nine_witness :
    getAccentedColoredPinyin ("ma".toList ++ ['9']) DEFAULT_SETTINGS
      = ("ma".toList, DEFAULT_SETTINGS.tone0) :=
  trailing_digit_five_to_nine DEFAULT_SETTINGS "ma".toList '9'
    (by decide) (by decide) (by decide)

/-- C7: the color of "ma1".."ma4" is tone1..tone4, "ma" and "ma0" resolve
to tone0, and in general a parsed digit maps 1,2,3,4 to the matching
setting and anything else (a parse without digit included) to tone0. -/
theorem tone_color_round_trip (settings : ToneColorSettings) :
    (∀ (input base : List Char) (d : Char),
      matchPinyin input = some (base, some d) →
      (getAccentedColoredPinyin input settings).2 =
        (if d = '1' then settings.tone1
         else if d = '2' then settings.tone2
         else if d = '3' then settings.tone3
         else if d = '4' then settings.tone4
         else settings.tone0)) ∧
    (∀ (input base : List Char),
      matchPinyin input = some (base, none) →
      (getAccentedColoredPinyin input settings).2 = settings.tone0) ∧
    (getAccentedColoredPinyin "ma1".toList settings).2 = settings.tone1 ∧
    (getAccentedColoredPinyin "ma2".toList settings).2 = settings.tone2 ∧
    (getAccentedColoredPinyin "ma3".toList settings).2 = settings.tone3 ∧
    (getAccentedColoredPinyin "ma4".toList settings).2 = settings.tone4 ∧
    (getAccentedColoredPinyin "ma".toList settings).2 = settings.tone0 ∧
    (getAccentedColoredPinyin "ma0".toList settings).2 = settings.tone0 := by
  have hchar : ∀ (d e : Char), digitToInt d = digitToInt e → d = e := by
    intro d e he
    unfold digitToInt at he
    exact char_eq_of_toNat_eq (by omega)
  refine ⟨?_, ?_, rfl, rfl, rfl, rfl, rfl, rfl⟩
  · intro input base d h
    simp only [getAccentedColoredPinyin, h]
    by_cases h1 : d = '1'
    · subst h1; simp +decide [digitToInt]
    · rw [if_neg h1, if_neg (fun hc => h1 (hchar d '1' (by rw [hc]; decide)))]
      by_cases h2 : d = '2'
      · subst h2; simp +decide [digitToInt]
      · rw [if_neg h2, if_neg (fun hc => h2 (hchar d '2' (by rw [hc]; decide)))]
        by_cases h3 : d = '3'
        · subst h3; simp +decide [digitToInt]
        · rw [if_neg h3, if_neg (fun hc => h3 (hchar d '3' (by rw [hc]; decide)))]
          by_cases h4 : d = '4'
          · subst h4; simp +decide [digitToInt]
          · rw [if_neg h4, if_neg (fun hc => h4 (hchar d '4' (by rw [hc]; decide)))]
  · intro input base h
    simp only [getAccentedColoredPinyin, h]
    norm_num

theorem tone_color_round_trip_witness :
    (getAccentedColoredPinyin "la3".toList DEFAULT_SETTINGS).2 = DEFAULT_SETTINGS.tone3 := by
  have h := (tone_color_round_trip DEFAULT_SETTINGS).1 "la3".toList "la".toList '3' (by decide)
  rw [h]
  decide

/-- C1: for any tone in [1,4], the marked letter is selected by the fixed
priority order a, A, o, O, e, E — the first letter of that order occurring
anywhere in the base wins, at its leftmost occurrence — and only when none
of those six occurs is the rightmost occurrence among i, I, u, U, ü, Ü
marked; in particular addToneMark("hao",3) = "hǎo",
addToneMark("liu",2) = "liú" and addToneMark("gui",4) = "guì". -/
theorem addToneMark_vowel_priority :
    (∀ (base : List Char) (tone : Int) (v : Char) (i : Nat),
      1 ≤ tone → tone ≤ 4 →
      v ∈ vowelsOrder →
      base[i]? = some v →
      (∀ j, j < i → base[j]? ≠ some v) →
      (∀ w ∈ vowelsOrder.take (vowelsOrder.indexOf v), w ∉ base) →
      addToneMark base tone = base.set i (toneVariant v tone)) ∧
    (∀ (base : List Char) (tone : Int) (v : Char) (i : Nat),
      1 ≤ tone → tone ≤ 4 →
      (∀ w ∈ vowelsOrder, w ∉ base) →
      v ∈ fallbackVowels →
      base[i]? = some v →
      (∀ j, i < j → ∀ w, base[j]? = some w → w ∉ fallbackVowels) →
      addToneMark base tone = base.set i (toneVariant v tone)) ∧
    addToneMark "hao".toList 3 = "hǎo".toList ∧
    addToneMark "liu".toList 2 = "liú".toList ∧
    addToneMark "gui".toList 4 = "guì".toList := by
  refine ⟨?_, ?_, by decide, by decide, by decide⟩
  · intro base tone v i h1 h2 hv hocc hleft hpri
    have hpt : findPriorityTarget base = some (i, v) :=
      findPriorityTarget_of_choice hv hocc hleft hpri
    have hct : chosenTarget base = some (i, v) := by
      unfold chosenTarget
      rw [hpt]
    have hvar : ∃ variants, toneMap v = some variants := by
      simp only [vowelsOrder, List.mem_cons, List.not_mem_nil, or_false] at hv
      rcases hv with rfl | rfl | rfl | rfl | rfl | rfl <;> exact ⟨_, rfl⟩
    obtain ⟨variants, hvar⟩ := hvar
    exact addToneMark_marks (by omega) hct hocc hvar
  · intro base tone v i h1 h2 habs hv hocc hright
    have hnone : findPriorityTarget base = none := by
      unfold findPriorityTarget
      rw [List.findSome?_eq_none_iff]
      intro w hw
      rw [Option.map_eq_none']
      exact (indexOfChar_eq_none_iff base w).mpr (habs w hw)
    have hcontains : fallbackVowels.contains v = true := by simpa using hv
    have hft : findFallbackTarget base = some (i, v) := by
      apply findFallbackTarget_of_rightmost hocc hcontains
      intro j hj w hw
      simpa using hright j hj w hw
    have hct : chosenTarget base = some (i, v) := by
      unfold chosenTarget
      rw [hnone]
      exact hft
    have hvar : ∃ variants, toneMap v = some variants := by
      simp only [fallbackVowels, List.mem_cons, List.not_mem_nil, or_false] at hv
      rcases hv with rfl | rfl | rfl | rfl | rfl | rfl <;> exact ⟨_, rfl⟩
    obtain ⟨variants, hvar⟩ := hvar
    exact addToneMark_marks (by omega) hct hocc hvar

theorem addToneMark_vowel_priority_witness :
    addToneMark "hao".toList 3 = ("hao".toList).set 1 (toneVariant 'a' 3) :=
  addToneMark_vowel_priority.1 "hao".toList 3 'a' 1 (by decide) (by decide)
    (by decide) (by decide) (by decide) (by decide)

/-- C2: for any tone in [1,4], a base containing at least one of the
twelve markable vowels comes back differing by exactly one letter
substitution — some occurrence of a markable vowel replaced by its tone
variant, every other position unchanged — and a base containing none of
the twelve comes back unchanged. -/
theorem addToneMark_single_substitution :
    (∀ (base : List Char) (tone : Int),
      1 ≤ tone → tone ≤ 4 →
      (∃ c ∈ base, c ∈ markableVowels) →
      ∃ i v, base[i]? = some v ∧ v ∈ markableVowels ∧ toneVariant v tone ≠ v ∧
        addToneMark base tone = base.set i (toneVariant v tone)) ∧
    (∀ (base : List Char) (tone : Int),
      (∀ c ∈ base, c ∉ markableVowels) → addToneMark base tone = base) := by
  constructor
  · intro base tone h1 h2 hex
    cases hpt : findPriorityTarget base with
    | some t =>
        obtain ⟨i, v⟩ := t
        obtain ⟨hv, hocc⟩ := findPriorityTarget_sound hpt
        have hct : chosenTarget base = some (i, v) := by
          unfold chosenTarget
          rw [hpt]
        have hvar : ∃ variants, toneMap v = some variants := by
          simp only [vowelsOrder, List.mem_cons, List.not_mem_nil, or_false] at hv
          rcases hv with rfl | rfl | rfl | rfl | rfl | rfl <;> exact ⟨_, rfl⟩
        obtain ⟨variants, hvar⟩ := hvar
        refine ⟨i, v, hocc, List.mem_append.mpr (Or.inl hv), ?_,
          addToneMark_marks (by omega) hct hocc hvar⟩
        have ht : tone = 1 ∨ tone = 2 ∨ tone = 3 ∨ tone = 4 := by omega
        simp only [vowelsOrder, List.mem_cons, List.not_mem_nil, or_false] at hv
        rcases hv with rfl | rfl | rfl | rfl | rfl | rfl <;>
          rcases ht with rfl | rfl | rfl | rfl <;> decide
    | none =>
        cases hft : findFallbackTarget base with
        | some t =>
            obtain ⟨i, v⟩ := t
            obtain ⟨hocc, hcont⟩ := findFallbackTarget_sound hft
            have hv : v ∈ fallbackVowels := by simpa using hcont
            have hct : chosenTarget base = some (i, v) := by
              unfold chosenTarget
              rw [hpt]
              exact hft
            have hvar : ∃ variants, toneMap v = some variants := by
              simp only [fallbackVowels, List.mem_cons, List.not_mem_nil, or_false] at hv
              rcases hv with rfl | rfl | rfl | rfl | rfl | rfl <;> exact ⟨_, rfl⟩
            obtain ⟨variants, hvar⟩ := hvar
            refine ⟨i, v, hocc, List.mem_append.mpr (Or.inr hv), ?_,
              addToneMark_marks (by omega) hct hocc hvar⟩
            have ht : tone = 1 ∨ tone = 2 ∨ tone = 3 ∨ tone = 4 := by omega
            simp only [fallbackVowels, List.mem_cons, List.not_mem_nil, or_false] at hv
            rcases hv with rfl | rfl | rfl | rfl | rfl | rfl <;>
              rcases ht with rfl | rfl | rfl | rfl <;> decide
        | none =>
            exfalso
            obtain ⟨c, hc, hcm⟩ := hex
            have hpri := findPriorityTarget_eq_none hpt
            have hfb := findFallbackTarget_eq_none hft
            rw [markableVowels, List.mem_append] at hcm
            rcases hcm with h | h
            · exact hpri c h hc
            · have := hfb c hc
              rw [(by simpa using h : fallbackVowels.contains c = true)] at this
              simp at this
  · intro base tone habs
    by_cases hrange : tone < 1 ∨ 4 < tone
    · exact addToneMark_not_in_range base tone hrange
    · have hpt : findPriorityTarget base = none := by
        unfold findPriorityTarget
        rw [List.findSome?_eq_none_iff]
        intro w hw
        rw [Option.map_eq_none']
        refine (indexOfChar_eq_none_iff base w).mpr ?_
        intro hmem
        exact habs w hmem (List.mem_append.mpr (Or.inl hw))
      have hft : findFallbackTarget base = none := by
        unfold findFallbackTarget
        have hfil : base.filter (fun c => fallbackVowels.contains c) = [] := by
          rw [List.filter_eq_nil_iff]
          intro a ha hcont
          exact habs a ha
            (List.mem_append.mpr (Or.inr (by simpa using hcont)))
        rw [hfil]
        rfl
      have hct : chosenTarget base = none := by
        unfold chosenTarget
        rw [hpt]
        exact hft
      unfold addToneMark
      rw [if_neg hrange, hct]

theorem addToneMark_single_substitution_witness :
    ∃ i v, ("hao".toList)[i]? = some v ∧ v ∈ markableVowels ∧ toneVariant v 3 ≠ v ∧
      addToneMark "hao".toList 3 = ("hao".toList).set i (toneVariant v 3) :=
  addToneMark_single_substitution.1 "hao".toList 3 (by decide) (by decide) (by decide)

theorem scanLoop_mem_props (text : List Nat) (toPos : Nat)
    (rom : List Nat → List (List Char)) (settings : ToneColorSettings) :
    ∀ pos, ∀ a ∈ scanLoop text toPos rom settings pos,
      pos ≤ a.startOffset ∧
        a.endOffset = a.startOffset + charSize (text.getD a.startOffset 0) := by
  suffices key : ∀ n pos, toPos - pos ≤ n → ∀ a ∈ scanLoop text toPos rom settings pos,
      pos ≤ a.startOffset ∧
        a.endOffset = a.startOffset + charSize (text.getD a.startOffset 0) from
    fun pos => key (toPos - pos) pos le_rfl
  intro n
  induction n with
  | zero =>
      intro pos hle a ha
      unfold scanLoop at ha
      split at ha
      next h => exact absurd hle (by omega)
      next h => simp at ha
  | succ n ih =>
      intro pos hle a ha
      unfold scanLoop at ha
      split at ha
      next hlt =>
        have hcs := charSize_pos (text.getD pos 0)
        split at ha
        next hchin =>
          rcases List.mem_cons.mp ha with rfl | hmem
          · exact ⟨le_refl _, rfl⟩
          · obtain ⟨ih1, ih2⟩ := ih (pos + charSize (text.getD pos 0)) (by omega) a hmem
            exact ⟨by omega, ih2⟩
        next hchin =>
          obtain ⟨ih1, ih2⟩ := ih (pos + charSize (text.getD pos 0)) (by omega) a ha
          exact ⟨by omega, ih2⟩
      next hlt => simp at ha

theorem scanLoop_pairwise (text : List Nat) (toPos : Nat)
    (rom : List Nat → List (List Char)) (settings : ToneColorSettings) :
    ∀ pos,
      List.Pairwise (fun a b => a.endOffset ≤ b.startOffset ∧ a.startOffset < b.startOffset)
        (scanLoop text toPos rom settings pos) := by
  suffices key : ∀ n pos, toPos - pos ≤ n →
      List.Pairwise (fun a b => a.endOffset ≤ b.startOffset ∧ a.startOffset < b.startOffset)
        (scanLoop text toPos rom settings pos) from
    fun pos => key (toPos - pos) pos le_rfl
  intro n
  induction n with
  | zero =>
      intro pos hle
      unfold scanLoop
      split
      next h => exact absurd hle (by omega)
      next h => exact List.Pairwise.nil
  | succ n ih =>
      intro pos hle
      unfold scanLoop
      split
      next hlt =>
        have hcs := charSize_pos (text.getD pos 0)
        split
        next hchin =>
          refine List.Pairwise.cons ?_ (ih (pos + charSize (text.getD pos 0)) (by omega))
          intro b hb
          obtain ⟨hb1, hb2⟩ := scanLoop_mem_props text toPos rom settings _ b hb
          constructor
          · show pos + charSize (text.getD pos 0) ≤ b.startOffset
            exact hb1
          · show pos < b.startOffset
            omega
        next hchin => exact ih (pos + charSize (text.getD pos 0)) (by omega)
      next hlt => exact List.Pairwise.nil

/-- C5: the decorations of one computeDecorations pass come in strictly
increasing start-offset order with pairwise non-overlapping spans, and
each span is exactly the scanned character's span [pos, pos + width) with
the width the code computed for the unit at pos. -/
theorem computeDecorations_ordered_disjoint (text : List Nat) (fromPos toPos : Nat)
    (rom : List Nat → List (List Char)) (settings : ToneColorSettings) :
    List.Pairwise (fun a b => a.endOffset ≤ b.startOffset ∧ a.startOffset < b.startOffset)
      (computeDecorations text fromPos toPos rom settings) ∧
    ∀ a ∈ computeDecorations text fromPos toPos rom settings,
      a.endOffset = a.startOffset + charSize (text.getD a.startOffset 0) :=
  ⟨scanLoop_pairwise text toPos rom settings fromPos,
   fun a ha => (scanLoop_mem_props text toPos rom settings fromPos a ha).2⟩

theorem scanLoop_mem_chinese (text : List Nat) (toPos : Nat)
    (rom : List Nat → List (List Char)) (settings : ToneColorSettings) :
    ∀ pos, ∀ a ∈ scanLoop text toPos rom settings pos,
      isChineseChar [text.getD a.startOffset 0] = true := by
  suffices key : ∀ n pos, toPos - pos ≤ n → ∀ a ∈ scanLoop text toPos rom settings pos,
      isChineseChar [text.getD a.startOffset 0] = true from
    fun pos => key (toPos - pos) pos le_rfl
  intro n
  induction n with
  | zero =>
      intro pos hle a ha
      unfold scanLoop at ha
      split at ha
      next h => exact absurd hle (by omega)
      next h => simp at ha
  | succ n ih =>
      intro pos hle a ha
      unfold scanLoop at ha
      split at ha
      next hlt =>
        have hcs := charSize_pos (text.getD pos 0)
        split at ha
        next hchin =>
          rcases List.mem_cons.mp ha with rfl | hmem
          · exact hchin
          · exact ih (pos + charSize (text.getD pos 0)) (by omega) a hmem
        next hchin =>
          exact ih (pos + charSize (text.getD pos 0)) (by omega) a ha
      next hlt => simp at ha

/-- C6: a position yields a decoration only when isChineseChar holds for
the character read there — for every document, range, romanizer and
settings; isChineseChar on a single character holds exactly when its code
point lies in [U+4E00, U+9FFF] (an astral character's surrogate units are
never in range); and scanning "I love 中文" in full produces exactly two
decorations, covering the positions of 中 and 文 only, for every romanizer
and every settings value. -/
theorem isChineseChar_range_and_example :
    (∀ c : Char, isChineseChar (utf16Encode c) = true ↔
      0x4E00 ≤ c.toNat ∧ c.toNat ≤ 0x9FFF) ∧
    (∀ (text : List Nat) (fromPos toPos : Nat) (rom : List Nat → List (List Char))
      (settings : ToneColorSettings),
      ∀ a ∈ computeDecorations text fromPos toPos rom settings,
        isChineseChar [text.getD a.startOffset 0] = true) ∧
    (∀ (rom : List Nat → List (List Char)) (settings : ToneColorSettings),
      (computeDecorations (utf16 "I love 中文".toList) 0 9 rom settings).map
        (fun d => (d.startOffset, d.endOffset)) = [(7, 8), (8, 9)]) := by
  refine ⟨?_, ?_, ?_⟩
  · intro c
    unfold isChineseChar utf16Encode
    split
    next h => simp
    next h =>
      simp only [List.any_cons, List.any_nil, Bool.or_false, Bool.or_eq_true,
        Bool.and_eq_true, decide_eq_true_eq]
      omega
  · intro text fromPos toPos rom settings a ha
    exact scanLoop_mem_chinese text toPos rom settings fromPos a ha
  · intro rom settings
    simp +decide [computeDecorations, scanLoop, charSize, isChineseChar, utf16, utf16Encode]

/-- C9: one pass is deterministic and mutates neither the document nor the
settings: the pass returns its state unchanged, and a second pass on the
returned state yields the identical decoration list. -/
theorem computeDecorations_pure_idempotent (text : List Nat) (settings : ToneColorSettings)
    (fromPos toPos : Nat) (rom : List Nat → List (List Char)) :
    (computeDecorationsPass (text, settings) fromPos toPos rom).1 = (text, settings) ∧
    (computeDecorationsPass ((computeDecorationsPass (text, settings) fromPos toPos rom).1)
        fromPos toPos rom).2
      = (computeDecorationsPass (text, settings) fromPos toPos rom).2 :=
  ⟨rfl, rfl⟩

/-- C3 (code bug): `text[pos]` is a single UTF-16 code unit, whose value
never exceeds 0xFFFF, so the width the scan computes is 1 — not 2 — even
at a character above U+FFFF such as 𝌆 (U+1D306): its two surrogate units
each get width 1, and scanning "𝌆中" reaches 中 at offset 2 having
advanced one unit at a time. -/
theorem surrogate_width_always_one :
    0xFFFF < '𝌆'.toNat ∧
    utf16 ['𝌆'] = [0xD834, 0xDF06] ∧
    (utf16 ['𝌆', '中']).map charSize = [1, 1, 1] ∧
    (computeDecorations (utf16 ['𝌆', '中']) 0 3 (fun _ => [[]]) DEFAULT_SETTINGS).map
      (fun d => (d.startOffset, d.endOffset)) = [(2, 3)] := by
  refine ⟨by decide, by decide, by decide, ?_⟩
  simp +decide [computeDecorations, scanLoop, charSize, isChineseChar, utf16, utf16Encode]

theorem computeDecorations_ordered_disjoint_witness :
    (Decoration.mk 0 1 "gray" []).endOffset =
      (Decoration.mk 0 1 "gray" []).startOffset + charSize ((utf16 ['中']).getD 0 0) :=
  (computeDecorations_ordered_disjoint (utf16 ['中']) 0 1 (fun _ => [[]]) DEFAULT_SETTINGS).2
    (Decoration.mk 0 1 "gray" [])
    (by simp +decide [computeDecorations, scanLoop, charSize, isChineseChar, utf16,
      utf16Encode, getAccentedColoredPinyin, matchPinyin, DEFAULT_SETTINGS])

theorem isChineseChar_range_and_example_witness :
    isChineseChar (utf16Encode '中') = true ∧
    isChineseChar [(utf16 ['中']).getD (Decoration.mk 0 1 "gray" []).startOffset 0] = true :=
  ⟨(isChineseChar_range_and_example.1 '中').mpr (by decide),
   isChineseChar_range_and_example.2.1 (utf16 ['中']) 0 1 (fun _ => [[]]) DEFAULT_SETTINGS
     (Decoration.mk 0 1 "gray" [])
     (by simp +decide [computeDecorations, scanLoop, charSize, isChineseChar, utf16,
       utf16Encode, getAccentedColoredPinyin, matchPinyin, DEFAULT_SETTINGS])⟩
